import Mathlib

set_option maxHeartbeats 1000000

/-!
Shallow embedding of the `pouch` crate (src/lib.rs): a heterogeneous bag
keyed by runtime type identity, in two variants:

* `Pouch`  — the sequential variant (`HashMap<TypeId, Vec<Box<dyn Any>>>`
  together with a `counts : HashMap<TypeId, u64>` side index);
* `APouch` — the atomic variant (`DashMap<TypeId, Vec<Box<dyn Any + Send + Sync>>>`,
  no count index).

`TypeId` is modelled as `Nat` (an opaque, totally ordered, hashable key).
A boxed `dyn Any` value is modelled by `Boxed`: the `TypeId` it was stored
under together with its payload (a `Nat`); `downcast_ref` succeeds exactly
when the requested type matches the stored tag, mirroring
`Box<dyn Any>::downcast_ref::<T>()`.  The hash maps are modelled as
association lists with first-match lookup; no claim below depends on the
(unspecified) iteration order of the Rust maps except through operations
that are order-independent.
-/

abbrev TypeId := Nat

/-- A type-erased boxed value: the `TypeId` of its concrete type and its payload. -/
structure Boxed where
  tid : TypeId
  val : Nat
  deriving DecidableEq

/-- `Box<dyn Any>::downcast_ref::<T>()`: succeeds iff the stored tag is `T`. -/
def downcast_ref (T : TypeId) (b : Boxed) : Option Nat :=
  if b.tid = T then some b.val else none

/-- `HashMap::get` / `DashMap::get` on an association-list model. -/
def mfind {β : Type} : List (TypeId × β) → TypeId → Option β
  | [], _ => none
  | (k, v) :: rest, t => if k = t then some v else mfind rest t

/-- `Iterator::position`: index of the first element satisfying `p`. -/
def position {α : Type} (p : α → Bool) : List α → Option Nat
  | [] => none
  | a :: l => if p a then some 0 else (position p l).map (· + 1)

/-- `self.data.entry(k).or_default().push(b)`: append `b` to the bucket at `k`,
creating the bucket if absent. -/
def pushEntry (m : List (TypeId × List Boxed)) (k : TypeId) (b : Boxed) :
    List (TypeId × List Boxed) :=
  match m with
  | [] => [(k, [b])]
  | (q, l) :: rest =>
      if q = k then (q, l ++ [b]) :: rest else (q, l) :: pushEntry rest k b

/-- `*self.counts.entry(k).or_insert(0) += 1`. -/
def bump (m : List (TypeId × Nat)) (k : TypeId) : List (TypeId × Nat) :=
  match m with
  | [] => [(k, 1)]
  | (q, n) :: rest =>
      if q = k then (q, n + 1) :: rest else (q, n) :: bump rest k

/-- `*self.counts.entry(k).or_insert(0) = self.counts.entry(k).or_insert(0).saturating_sub(1)`;
`Nat` subtraction is saturating, matching `u64::saturating_sub`. -/
def decr (m : List (TypeId × Nat)) (k : TypeId) : List (TypeId × Nat) :=
  match m with
  | [] => [(k, 0)]
  | (q, n) :: rest =>
      if q = k then (q, n - 1) :: rest else (q, n) :: decr rest k

/-- In-place update of the value behind an existing key (the effect of mutating
through `get_mut`); a no-op when the key is absent. -/
def mset {β : Type} (m : List (TypeId × β)) (k : TypeId) (v : β) :
    List (TypeId × β) :=
  match m with
  | [] => []
  | (q, w) :: rest =>
      if q = k then (q, v) :: rest else (q, w) :: mset rest k v

/-- The predicate of the `contains`/`remove` scans:
`el.downcast_ref::<T>() == Some(&t)`. -/
def matchesV (T : TypeId) (v : Nat) (b : Boxed) : Bool :=
  decide (downcast_ref T b = some v)

/-- Sequential variant of `Pouch`: the bucket map and the `counts` side index. -/
structure Pouch where
  data : List (TypeId × List Boxed)
  counts : List (TypeId × Nat)
  deriving DecidableEq

namespace Pouch

/-- `Pouch::new` (non-atomic): both maps empty. -/
def new : Pouch := { data := [], counts := [] }

/-- `Pouch::is_empty`: `self.data.is_empty()`. -/
def is_empty (p : Pouch) : Bool := p.data.isEmpty

/-- `Pouch::types` (non-atomic): `self.data.keys().cloned().collect()`. -/
def types (p : Pouch) : List TypeId := p.data.map Prod.fst

/-- `Pouch::count` (non-atomic): `*self.counts.get(&type_id).unwrap_or(&0)`. -/
def count (p : Pouch) (T : TypeId) : Nat := (mfind p.counts T).getD 0

/-- `Pouch::most_common_type` (non-atomic): `self.counts.keys().max().copied()`. -/
def most_common_type (p : Pouch) : Option TypeId :=
  (p.counts.map Prod.fst).max?

/-- `Pouch::insert` (non-atomic): push a freshly boxed value into the bucket for
`T`, then increment the count entry for `T`. -/
def insert (p : Pouch) (T : TypeId) (v : Nat) : Pouch :=
  { data := pushEntry p.data T { tid := T, val := v }
    counts := bump p.counts T }

/-- `Pouch::contains` (non-atomic): linear scan of the bucket for `T`,
comparing each successfully downcast element with `v`. -/
def contains (p : Pouch) (T : TypeId) (v : Nat) : Bool :=
  match mfind p.data T with
  | none => false
  | some elems => elems.any (matchesV T v)

/-- `Pouch::get_all_of_type` (non-atomic): every element of the bucket for `T`
that downcasts to `T`, in bucket order; empty when the bucket is absent. -/
def get_all_of_type (p : Pouch) (T : TypeId) : List Nat :=
  match mfind p.data T with
  | none => []
  | some elems => elems.filterMap (downcast_ref T)

/-- `Pouch::remove` (non-atomic): find the first element of the bucket for `T`
equal to `v`, remove it by `Vec::remove` (shift), decrement the count entry;
returns whether a removal occurred together with the resulting state. -/
def remove (p : Pouch) (T : TypeId) (v : Nat) : Bool × Pouch :=
  match mfind p.data T with
  | none => (false, p)
  | some elems =>
      match position (matchesV T v) elems with
      | none => (false, p)
      | some i =>
          (true,
            { data := mset p.data T (elems.eraseIdx i)
              counts := decr p.counts T })

/-- `Pouch::clear` (non-atomic): `self.data.clear(); self.counts.clear()`. -/
def clear (_p : Pouch) : Pouch := { data := [], counts := [] }

end Pouch

/-- Atomic variant of `Pouch`: only the `DashMap` of buckets, no count index. -/
structure APouch where
  data : List (TypeId × List Boxed)
  deriving DecidableEq

namespace APouch

/-- `Pouch::new` (atomic). -/
def new : APouch := { data := [] }

/-- `Pouch::is_empty` on the atomic variant. -/
def is_empty (p : APouch) : Bool := p.data.isEmpty

/-- `Pouch::types` (atomic). -/
def types (p : APouch) : List TypeId := p.data.map Prod.fst

/-- `Pouch::count` (atomic): measure the bucket for `T` on demand, `0` if absent. -/
def count (p : APouch) (T : TypeId) : Nat :=
  match mfind p.data T with
  | none => 0
  | some elems => elems.length

/-- `Pouch::most_common_type` (atomic):
`self.data.iter().max_by_key(|r| r.value().len()).map(|r| *r.key())`.
Rust `max_by_key` keeps the last of equally maximal elements, modelled by the
`≥` comparison in a left fold. -/
def most_common_type (p : APouch) : Option TypeId :=
  (p.data.foldl
      (fun acc e =>
        match acc with
        | none => some e
        | some a => if a.2.length ≤ e.2.length then some e else some a)
      none).map Prod.fst

/-- `Pouch::insert` (atomic): `self.data.entry(type_id).or_insert_with(Vec::new).push(...)`. -/
def insert (p : APouch) (T : TypeId) (v : Nat) : APouch :=
  { data := pushEntry p.data T { tid := T, val := v } }

/-- `Pouch::contains` (atomic): same scan as the non-atomic version. -/
def contains (p : APouch) (T : TypeId) (v : Nat) : Bool :=
  match mfind p.data T with
  | none => false
  | some elems => elems.any (matchesV T v)

/-- `Pouch::remove` (atomic): same scan and `Vec::remove` as the non-atomic
version, with no count index to maintain. -/
def remove (p : APouch) (T : TypeId) (v : Nat) : Bool × APouch :=
  match mfind p.data T with
  | none => (false, p)
  | some elems =>
      match position (matchesV T v) elems with
      | none => (false, p)
      | some i => (true, { data := mset p.data T (elems.eraseIdx i) })

/-- `Pouch::clear` (atomic): `self.data.clear()`. -/
def clear (_p : APouch) : APouch := { data := [] }

end APouch

/-- A public mutating operation on the sequential variant. -/
inductive Op where
  | ins (T : TypeId) (v : Nat)
  | rem (T : TypeId) (v : Nat)
  | clear
  deriving DecidableEq

/-- Apply one operation to a sequential pouch. -/
def applyOp (p : Pouch) : Op → Pouch
  | Op.ins T v => p.insert T v
  | Op.rem T v => (p.remove T v).2
  | Op.clear => p.clear

/-- Apply a sequence of operations in order. -/
def applyOps (p : Pouch) (ops : List Op) : Pouch := ops.foldl applyOp p

/-- The state reached from the constructor by a sequence of operations. -/
def run (ops : List Op) : Pouch := applyOps Pouch.new ops

/-- The payloads inserted at type `T` by a sequence of operations, in order. -/
def insVals (ops : List Op) (T : TypeId) : List Nat :=
  ops.filterMap fun o =>
    match o with
    | Op.ins S v => if S = T then some v else none
    | _ => none

/-- The count-index invariant: for every key, the recorded count equals the
length of the bucket (both defaulting to empty when absent). -/
def countInv (p : Pouch) : Prop :=
  ∀ k : TypeId, p.count k = ((mfind p.data k).getD []).length

/-- Well-typedness discipline: every element of the bucket at `k` is tagged `k`. -/
def wellTyped (p : Pouch) : Prop :=
  ∀ k : TypeId, ∀ b ∈ (mfind p.data k).getD [], b.tid = k

/-- How many elements of the bucket for `T` compare equal to `v` after downcast. -/
def matchCount (p : Pouch) (T : TypeId) (v : Nat) : Nat :=
  ((mfind p.data T).getD []).countP (matchesV T v)

/-- Same for the atomic variant. -/
def amatchCount (p : APouch) (T : TypeId) (v : Nat) : Nat :=
  ((mfind p.data T).getD []).countP (matchesV T v)

/-- An operation that neither clears nor removes a value equal to `v` at type `T`. -/
def noninterfering (T : TypeId) (v : Nat) : Op → Bool
  | Op.ins _ _ => true
  | Op.rem S w => !(S = T && w = v)
  | Op.clear => false

/-- The boxed values inserted at type `T` by a sequence of operations, in order. -/
def insBoxes (ops : List Op) (T : TypeId) : List Boxed :=
  ops.filterMap fun o =>
    match o with
    | Op.ins S v => if S = T then some { tid := S, val := v } else none
    | _ => none

theorem mfind_pushEntry (m : List (TypeId × List Boxed)) (k t : TypeId) (b : Boxed) :
    mfind (pushEntry m k b) t =
      if k = t then some ((mfind m k).getD [] ++ [b]) else mfind m t := by
  induction m with
  | nil =>
      simp only [pushEntry, mfind]
      split <;> simp_all [mfind]
  | cons hd tl ih =>
      obtain ⟨q, l⟩ := hd
      simp only [pushEntry]
      by_cases hqk : q = k
      · subst hqk
        by_cases hqt : q = t <;> simp [mfind, hqt]
      · by_cases hqt : q = t
        · subst hqt
          have hkq : ¬ k = q := fun h => hqk h.symm
          simp [mfind, hkq, hqk]
        · simp [mfind, hqt, ih, hqk]

theorem mfind_bump (m : List (TypeId × Nat)) (k t : TypeId) :
    mfind (bump m k) t =
      if k = t then some ((mfind m k).getD 0 + 1) else mfind m t := by
  induction m with
  | nil =>
      simp only [bump, mfind]
      split <;> simp_all [mfind]
  | cons hd tl ih =>
      obtain ⟨q, n⟩ := hd
      simp only [bump]
      by_cases hqk : q = k
      · subst hqk
        by_cases hqt : q = t <;> simp [mfind, hqt]
      · by_cases hqt : q = t
        · subst hqt
          have hkq : ¬ k = q := fun h => hqk h.symm
          simp [mfind, hkq, hqk]
        · simp [mfind, hqt, ih, hqk]

theorem mfind_decr (m : List (TypeId × Nat)) (k t : TypeId) :
    mfind (decr m k) t =
      if k = t then some ((mfind m k).getD 0 - 1) else mfind m t := by
  induction m with
  | nil =>
      simp only [decr, mfind]
      split <;> simp_all [mfind]
  | cons hd tl ih =>
      obtain ⟨q, n⟩ := hd
      simp only [decr]
      by_cases hqk : q = k
      · subst hqk
        by_cases hqt : q = t <;> simp [mfind, hqt]
      · by_cases hqt : q = t
        · subst hqt
          have hkq : ¬ k = q := fun h => hqk h.symm
          simp [mfind, hkq, hqk]
        · simp [mfind, hqt, ih, hqk]

theorem mfind_mset {β : Type} (m : List (TypeId × β)) (k t : TypeId) (v w : β)
    (hk : mfind m k = some w) :
    mfind (mset m k v) t = if k = t then some v else mfind m t := by
  induction m with
  | nil => simp [mfind] at hk
  | cons hd tl ih =>
      obtain ⟨q, u⟩ := hd
      simp only [mset]
      by_cases hqk : q = k
      · subst hqk
        by_cases hqt : q = t <;> simp [mfind, hqt]
      · simp only [mfind, hqk, if_neg] at hk
        by_cases hqt : q = t
        · subst hqt
          have hkq : ¬ k = q := fun h => hqk h.symm
          simp [mfind, hkq, hqk]
        · simp [mfind, hqt, ih hk, hqk]

theorem mset_keys {β : Type} (m : List (TypeId × β)) (k : TypeId) (v : β) :
    (mset m k v).map Prod.fst = m.map Prod.fst := by
  induction m with
  | nil => rfl
  | cons hd tl ih =>
      obtain ⟨q, u⟩ := hd
      simp only [mset]
      by_cases hqk : q = k <;> simp [hqk, ih]

theorem pushEntry_ne_nil (m : List (TypeId × List Boxed)) (k : TypeId) (b : Boxed) :
    pushEntry m k b ≠ [] := by
  cases m with
  | nil => simp [pushEntry]
  | cons hd tl =>
      obtain ⟨q, l⟩ := hd
      simp only [pushEntry]
      split <;> simp

theorem position_eq_none {α : Type} (p : α → Bool) (l : List α) :
    position p l = none ↔ ∀ a ∈ l, p a = false := by
  induction l with
  | nil => simp [position]
  | cons a t ih =>
      by_cases hpa : p a = true
      · simp [position, hpa]
      · simp only [Bool.not_eq_true] at hpa
        simp [position, hpa]
        exact ih

theorem position_mem {α : Type} (p : α → Bool) (l : List α) (i : Nat)
    (h : position p l = some i) :
    i < l.length ∧ (∃ b, l[i]? = some b ∧ p b = true) ∧
      (l.take i).all (fun a => !(p a)) = true := by
  induction l generalizing i with
  | nil => simp [position] at h
  | cons a t ih =>
      by_cases hpa : p a = true
      · simp only [position, hpa, if_pos] at h
        cases h
        exact ⟨by simp, ⟨a, by simp [hpa]⟩, by simp⟩
      · simp only [Bool.not_eq_true] at hpa
        simp only [position, hpa, Bool.false_eq_true, if_false,
          Option.map_eq_some'] at h
        obtain ⟨j, hj, rfl⟩ := h
        obtain ⟨hlt, ⟨b, hb, hpb⟩, htake⟩ := ih j hj
        refine ⟨by simp [Nat.succ_lt_succ hlt], ⟨b, by simpa using hb, hpb⟩, ?_⟩
        simp [hpa, htake]

theorem countP_eraseIdx_position {α : Type} (p : α → Bool) (l : List α) (i : Nat)
    (h : position p l = some i) :
    (l.eraseIdx i).countP p + 1 = l.countP p := by
  induction l generalizing i with
  | nil => simp [position] at h
  | cons a t ih =>
      by_cases hpa : p a = true
      · simp only [position, hpa, if_pos] at h
        cases h
        simp [List.eraseIdx, List.countP_cons, hpa]
      · simp only [Bool.not_eq_true] at hpa
        simp only [position, hpa, Bool.false_eq_true, if_false,
          Option.map_eq_some'] at h
        obtain ⟨j, hj, rfl⟩ := h
        simp only [List.eraseIdx, List.countP_cons, hpa]
        simp only [Bool.false_eq_true, if_false, Nat.add_zero]
        exact ih j hj

theorem any_eraseIdx_position {α : Type} (q r : α → Bool) (l : List α) (i : Nat)
    (h : position q l = some i) (hqr : ∀ b, q b = true → r b = false) :
    (l.eraseIdx i).any r = l.any r := by
  induction l generalizing i with
  | nil => simp [position] at h
  | cons a t ih =>
      by_cases hqa : q a = true
      · simp only [position, hqa, if_pos] at h
        cases h
        simp [List.eraseIdx, hqr a hqa]
      · simp only [Bool.not_eq_true] at hqa
        simp only [position, hqa, Bool.false_eq_true, if_false,
          Option.map_eq_some'] at h
        obtain ⟨j, hj, rfl⟩ := h
        simp [List.eraseIdx, ih j hj]

theorem bucket_insert (p : Pouch) (T S : TypeId) (v : Nat) :
    mfind (p.insert S v).data T =
      if S = T then some ((mfind p.data S).getD [] ++ [{ tid := S, val := v }])
      else mfind p.data T := by
  simp [Pouch.insert, mfind_pushEntry]

theorem count_insert (p : Pouch) (T S : TypeId) (v : Nat) :
    (p.insert S v).count T = p.count T + if S = T then 1 else 0 := by
  simp only [Pouch.count, Pouch.insert, mfind_bump]
  by_cases h : S = T
  · subst h; simp
  · simp [h]

theorem abucket_insert (p : APouch) (T S : TypeId) (v : Nat) :
    mfind (p.insert S v).data T =
      if S = T then some ((mfind p.data S).getD [] ++ [{ tid := S, val := v }])
      else mfind p.data T := by
  simp [APouch.insert, mfind_pushEntry]

theorem acount_insert (p : APouch) (T S : TypeId) (v : Nat) :
    (p.insert S v).count T = p.count T + if S = T then 1 else 0 := by
  simp only [APouch.count, abucket_insert]
  by_cases h : S = T
  · subst h
    cases hb : mfind p.data S <;> simp [hb]
  · simp [h]

theorem remove_no_bucket (p : Pouch) (T : TypeId) (v : Nat)
    (h : mfind p.data T = none) : p.remove T v = (false, p) := by
  simp [Pouch.remove, h]

theorem remove_no_match (p : Pouch) (T : TypeId) (v : Nat) (l : List Boxed)
    (h : mfind p.data T = some l) (h2 : position (matchesV T v) l = none) :
    p.remove T v = (false, p) := by
  simp [Pouch.remove, h, h2]

theorem remove_match (p : Pouch) (T : TypeId) (v : Nat) (l : List Boxed) (i : Nat)
    (h : mfind p.data T = some l) (h2 : position (matchesV T v) l = some i) :
    p.remove T v =
      (true, { data := mset p.data T (l.eraseIdx i), counts := decr p.counts T }) := by
  simp [Pouch.remove, h, h2]

theorem aremove_no_bucket (p : APouch) (T : TypeId) (v : Nat)
    (h : mfind p.data T = none) : p.remove T v = (false, p) := by
  simp [APouch.remove, h]

theorem aremove_no_match (p : APouch) (T : TypeId) (v : Nat) (l : List Boxed)
    (h : mfind p.data T = some l) (h2 : position (matchesV T v) l = none) :
    p.remove T v = (false, p) := by
  simp [APouch.remove, h, h2]

theorem aremove_match (p : APouch) (T : TypeId) (v : Nat) (l : List Boxed) (i : Nat)
    (h : mfind p.data T = some l) (h2 : position (matchesV T v) l = some i) :
    p.remove T v = (true, { data := mset p.data T (l.eraseIdx i) }) := by
  simp [APouch.remove, h, h2]

theorem bucket_remove_other (p : Pouch) (T S : TypeId) (v : Nat) (hST : S ≠ T) :
    mfind ((p.remove T v).2).data S = mfind p.data S := by
  cases h : mfind p.data T with
  | none => rw [remove_no_bucket p T v h]
  | some l =>
      cases h2 : position (matchesV T v) l with
      | none => rw [remove_no_match p T v l h h2]
      | some i =>
          rw [remove_match p T v l i h h2]
          simp only
          rw [mfind_mset p.data T S (l.eraseIdx i) l h]
          exact if_neg fun hTS => hST hTS.symm

theorem abucket_remove_other (p : APouch) (T S : TypeId) (v : Nat) (hST : S ≠ T) :
    mfind ((p.remove T v).2).data S = mfind p.data S := by
  cases h : mfind p.data T with
  | none => rw [aremove_no_bucket p T v h]
  | some l =>
      cases h2 : position (matchesV T v) l with
      | none => rw [aremove_no_match p T v l h h2]
      | some i =>
          rw [aremove_match p T v l i h h2]
          simp only
          rw [mfind_mset p.data T S (l.eraseIdx i) l h]
          exact if_neg fun hTS => hST hTS.symm

theorem countInv_new : countInv Pouch.new := fun _ => rfl

theorem countInv_clear (p : Pouch) : countInv p.clear := fun _ => rfl

theorem countInv_insert (p : Pouch) (T : TypeId) (v : Nat) (h : countInv p) :
    countInv (p.insert T v) := by
  intro k
  rw [count_insert p k T v, bucket_insert p k T v]
  by_cases hTk : T = k
  · subst hTk
    simp [h T]
  · simp [hTk, h k]

theorem countInv_remove (p : Pouch) (T : TypeId) (v : Nat) (h : countInv p) :
    countInv ((p.remove T v).2) := by
  cases hb : mfind p.data T with
  | none => rw [remove_no_bucket p T v hb]; exact h
  | some l =>
      cases h2 : position (matchesV T v) l with
      | none => rw [remove_no_match p T v l hb h2]; exact h
      | some i =>
          rw [remove_match p T v l i hb h2]
          intro k
          simp only [Pouch.count]
          rw [mfind_decr, mfind_mset p.data T k (l.eraseIdx i) l hb]
          by_cases hTk : T = k
          · subst hTk
            have hlen : i < l.length := (position_mem (matchesV T v) l i h2).1
            have hc : (mfind p.counts T).getD 0 = l.length := by
              have hT := h T
              rw [hb] at hT
              simpa [Pouch.count] using hT
            simp [List.length_eraseIdx_of_lt hlen, hc]
          · simp only [if_neg hTk]
            exact h k

theorem countInv_applyOp (p : Pouch) (o : Op) (h : countInv p) :
    countInv (applyOp p o) := by
  cases o with
  | ins T v => exact countInv_insert p T v h
  | rem T v => exact countInv_remove p T v h
  | clear => exact countInv_clear p

theorem countInv_applyOps (p : Pouch) (ops : List Op) (h : countInv p) :
    countInv (applyOps p ops) := by
  induction ops generalizing p with
  | nil => exact h
  | cons o rest ih => exact ih (applyOp p o) (countInv_applyOp p o h)

theorem countInv_run (ops : List Op) : countInv (run ops) :=
  countInv_applyOps Pouch.new ops countInv_new

theorem wellTyped_new : wellTyped Pouch.new := by
  intro k b hb
  simp [Pouch.new, mfind] at hb

theorem wellTyped_clear (p : Pouch) : wellTyped p.clear := by
  intro k b hb
  simp [Pouch.clear, mfind] at hb

theorem wellTyped_insert (p : Pouch) (T : TypeId) (v : Nat) (h : wellTyped p) :
    wellTyped (p.insert T v) := by
  intro k b hb
  rw [bucket_insert p k T v] at hb
  by_cases hTk : T = k
  · subst hTk
    have hb2 : b ∈ (mfind p.data T).getD [] ++ [{ tid := T, val := v }] := by
      simpa using hb
    rcases List.mem_append.mp hb2 with hmem | hmem
    · exact h T b hmem
    · simp only [List.mem_singleton] at hmem
      rw [hmem]
  · rw [if_neg hTk] at hb
    exact h k b hb

theorem wellTyped_remove (p : Pouch) (T : TypeId) (v : Nat) (h : wellTyped p) :
    wellTyped ((p.remove T v).2) := by
  cases hb : mfind p.data T with
  | none => rw [remove_no_bucket p T v hb]; exact h
  | some l =>
      cases h2 : position (matchesV T v) l with
      | none => rw [remove_no_match p T v l hb h2]; exact h
      | some i =>
          rw [remove_match p T v l i hb h2]
          intro k b hkb
          simp only at hkb
          rw [mfind_mset p.data T k (l.eraseIdx i) l hb] at hkb
          by_cases hTk : T = k
          · subst hTk
            simp only [if_pos rfl, Option.getD_some] at hkb
            have hbl : b ∈ l := (List.eraseIdx_sublist l i).subset hkb
            have := h T
            rw [hb] at this
            exact this b hbl
          · rw [if_neg hTk] at hkb
            exact h k b hkb

theorem wellTyped_applyOp (p : Pouch) (o : Op) (h : wellTyped p) :
    wellTyped (applyOp p o) := by
  cases o with
  | ins T v => exact wellTyped_insert p T v h
  | rem T v => exact wellTyped_remove p T v h
  | clear => exact wellTyped_clear p

theorem wellTyped_applyOps (p : Pouch) (ops : List Op) (h : wellTyped p) :
    wellTyped (applyOps p ops) := by
  induction ops generalizing p with
  | nil => exact h
  | cons o rest ih => exact ih (applyOp p o) (wellTyped_applyOp p o h)

theorem wellTyped_run (ops : List Op) : wellTyped (run ops) :=
  wellTyped_applyOps Pouch.new ops wellTyped_new

theorem isEmpty_eq_of_keys_eq {β γ : Type} (m1 : List (TypeId × β)) (m2 : List (TypeId × γ))
    (h : m1.map Prod.fst = m2.map Prod.fst) : m1.isEmpty = m2.isEmpty := by
  cases m1 <;> cases m2 <;> simp_all

theorem count_applyOps_inserts (p : Pouch) (l : List (TypeId × Nat)) (T : TypeId) :
    (applyOps p (l.map fun x => Op.ins x.1 x.2)).count T
      = p.count T + (l.filter fun x => decide (x.1 = T)).length := by
  induction l generalizing p with
  | nil => simp [applyOps]
  | cons x rest ih =>
      have hstep : applyOps p ((x :: rest).map fun y => Op.ins y.1 y.2)
          = applyOps (p.insert x.1 x.2) (rest.map fun y => Op.ins y.1 y.2) := rfl
      rw [hstep, ih, count_insert p T x.1 x.2, List.filter_cons]
      by_cases h : x.1 = T <;> (simp [h]; try omega)

theorem acount_foldl_inserts (p : APouch) (l : List (TypeId × Nat)) (T : TypeId) :
    (l.foldl (fun (q : APouch) x => q.insert x.1 x.2) p).count T
      = p.count T + (l.filter fun x => decide (x.1 = T)).length := by
  induction l generalizing p with
  | nil => simp
  | cons x rest ih =>
      rw [List.foldl_cons, ih, acount_insert p T x.1 x.2, List.filter_cons]
      by_cases h : x.1 = T <;> (simp [h]; try omega)

/-- C1: the claim says `most_common_type()` returns the TypeKey with the
strictly greatest count in both variants.  The sequential implementation is
`self.counts.keys().max().copied()`: it returns the largest `TypeId` key of the
count index and ignores the counts entirely, contradicting its own
documentation ("It checks the `HashMap` of counts to find the most common
type").  Concretely, after two inserts at type 1 and one insert at type 2, the
sequential variant answers type 2 although type 1 has the strictly greater
count, while the atomic variant (a genuine max over bucket lengths) answers
type 1 on identical content. -/
theorem C1_seq_most_common_type_bug :
    (((Pouch.new.insert 1 10).insert 1 11).insert 2 12).most_common_type = some 2 ∧
    (((Pouch.new.insert 1 10).insert 1 11).insert 2 12).count 2
      < (((Pouch.new.insert 1 10).insert 1 11).insert 2 12).count 1 ∧
    (((APouch.new.insert 1 10).insert 1 11).insert 2 12).most_common_type = some 1 := by
  decide

/-- C2: in the sequential variant the invariant `CountIndex[k] = |Bucket[k]|`
(for every key, with absent entries read as 0 and the empty bucket) holds in
every state reachable from the constructor, and is preserved by each of
`insert`, `remove` and `clear` individually; a counts entry may stay present
with value 0, which the invariant (stated over all keys) accommodates. -/
theorem C2_count_index_invariant :
    (∀ ops : List Op, countInv (run ops)) ∧
    (∀ (p : Pouch) (T : TypeId) (v : Nat), countInv p →
      countInv (p.insert T v) ∧ countInv ((p.remove T v).2) ∧ countInv p.clear) :=
  ⟨countInv_run, fun p T v h =>
    ⟨countInv_insert p T v h, countInv_remove p T v h, countInv_clear p⟩⟩

/-- Witness for C2 at the concrete state reached by no operations. -/
theorem C2_count_index_invariant_witness :
    countInv (Pouch.new.insert 1 5) ∧ countInv ((Pouch.new.remove 1 5).2) ∧
      countInv Pouch.new.clear :=
  C2_count_index_invariant.2 Pouch.new 1 5 (fun _ => rfl)

/-- C3: after any finite sequence of inserts from a fresh container, `count`
at `T` equals the number of inserts whose type was exactly `T`, in both the
sequential variant (via the counts index) and the atomic variant (via
on-demand bucket length). -/
theorem C3_count_after_inserts (l : List (TypeId × Nat)) (T : TypeId) :
    (run (l.map fun x => Op.ins x.1 x.2)).count T
        = (l.filter fun x => decide (x.1 = T)).length ∧
      (l.foldl (fun (q : APouch) x => q.insert x.1 x.2) APouch.new).count T
        = (l.filter fun x => decide (x.1 = T)).length := by
  constructor
  · rw [run, count_applyOps_inserts]
    exact Nat.zero_add _
  · rw [acount_foldl_inserts]
    exact Nat.zero_add _

/-- C8: `clear()` produces a state observationally (indeed literally) equal to
a freshly constructed container, in both variants: every subsequent `count`,
`contains`, `types` and `is_empty` query answers as on the constructor's state
(count 0, contains false, no types, empty). -/
theorem C8_clear_behaves_like_new (p : Pouch) (q : APouch) (T : TypeId) (v : Nat) :
    p.clear = Pouch.new ∧
    p.clear.count T = Pouch.new.count T ∧
    p.clear.contains T v = Pouch.new.contains T v ∧
    p.clear.types = Pouch.new.types ∧
    p.clear.is_empty = Pouch.new.is_empty ∧
    Pouch.new.count T = 0 ∧ Pouch.new.contains T v = false ∧
    Pouch.new.types = [] ∧ Pouch.new.is_empty = true ∧
    q.clear = APouch.new ∧
    APouch.new.count T = 0 ∧ APouch.new.contains T v = false ∧
    APouch.new.types = [] ∧ APouch.new.is_empty = true :=
  ⟨rfl, rfl, rfl, rfl, rfl, rfl, rfl, rfl, rfl, rfl, rfl, rfl, rfl, rfl⟩

/-- C9: `remove` never deletes a bucket entry from the type-to-bucket map:
the key list (`types()`) and hence `is_empty()` are unchanged by any `remove`;
and `insert` always leaves the container non-empty, so after removing the last
element of the only stored type the container still reports non-empty and
still lists that type. -/
theorem C9_remove_keeps_bucket_entry (p : Pouch) (T : TypeId) (v : Nat) :
    ((p.remove T v).2).types = p.types ∧
    ((p.remove T v).2).is_empty = p.is_empty ∧
    (p.insert T v).is_empty = false := by
  have hkeys : ((p.remove T v).2).data.map Prod.fst = p.data.map Prod.fst := by
    cases h : mfind p.data T with
    | none => rw [remove_no_bucket p T v h]
    | some l =>
        cases h2 : position (matchesV T v) l with
        | none => rw [remove_no_match p T v l h h2]
        | some i =>
            rw [remove_match p T v l i h h2]
            exact mset_keys p.data T (l.eraseIdx i)
  refine ⟨hkeys, isEmpty_eq_of_keys_eq _ _ hkeys, ?_⟩
  cases hpe : pushEntry p.data T { tid := T, val := v } with
  | nil => exact absurd hpe (pushEntry_ne_nil p.data T { tid := T, val := v })
  | cons a rest =>
      simp [Pouch.insert, Pouch.is_empty, hpe]

theorem bucket_remove_match_self (p : Pouch) (T : TypeId) (v : Nat) (l : List Boxed)
    (i : Nat) (hb : mfind p.data T = some l) (hp : position (matchesV T v) l = some i) :
    mfind ((p.remove T v).2).data T = some (l.eraseIdx i) := by
  rw [remove_match p T v l i hb hp]
  simp only
  rw [mfind_mset p.data T T (l.eraseIdx i) l hb]
  exact if_pos rfl

theorem abucket_remove_match_self (p : APouch) (T : TypeId) (v : Nat) (l : List Boxed)
    (i : Nat) (hb : mfind p.data T = some l) (hp : position (matchesV T v) l = some i) :
    mfind ((p.remove T v).2).data T = some (l.eraseIdx i) := by
  rw [aremove_match p T v l i hb hp]
  simp only
  rw [mfind_mset p.data T T (l.eraseIdx i) l hb]
  exact if_pos rfl

/-- C5: removing a value with no equal element of its type present returns
`false` and leaves the state literally unchanged; and whenever `remove` does
return `true` it removes exactly one matching element (the number of elements
of the bucket comparing equal to `v` drops by precisely one), so `true` can be
answered at most once per matching element present.  Both variants. -/
theorem C5_remove_absent_noop_and_true_decrements (p : Pouch) (q : APouch)
    (T : TypeId) (v : Nat) :
    (matchCount p T v = 0 → p.remove T v = (false, p)) ∧
    ((p.remove T v).1 = true →
      matchCount (p.remove T v).2 T v + 1 = matchCount p T v) ∧
    (amatchCount q T v = 0 → q.remove T v = (false, q)) ∧
    ((q.remove T v).1 = true →
      amatchCount (q.remove T v).2 T v + 1 = amatchCount q T v) := by
  refine ⟨?_, ?_, ?_, ?_⟩
  · intro h0
    cases hb : mfind p.data T with
    | none => exact remove_no_bucket p T v hb
    | some l =>
        have hall : ∀ b ∈ l, matchesV T v b = false := by
          have : l.countP (matchesV T v) = 0 := by
            simpa [matchCount, hb] using h0
          intro b hbl
          have := List.countP_eq_zero.mp this b hbl
          simpa using this
        exact remove_no_match p T v l hb ((position_eq_none (matchesV T v) l).mpr hall)
  · intro htrue
    cases hb : mfind p.data T with
    | none => rw [remove_no_bucket p T v hb] at htrue; cases htrue
    | some l =>
        cases hp : position (matchesV T v) l with
        | none => rw [remove_no_match p T v l hb hp] at htrue; cases htrue
        | some i =>
            have hbx := bucket_remove_match_self p T v l i hb hp
            simp only [matchCount, hbx, hb, Option.getD_some]
            exact countP_eraseIdx_position (matchesV T v) l i hp
  · intro h0
    cases hb : mfind q.data T with
    | none => exact aremove_no_bucket q T v hb
    | some l =>
        have hall : ∀ b ∈ l, matchesV T v b = false := by
          have : l.countP (matchesV T v) = 0 := by
            simpa [amatchCount, hb] using h0
          intro b hbl
          have := List.countP_eq_zero.mp this b hbl
          simpa using this
        exact aremove_no_match q T v l hb ((position_eq_none (matchesV T v) l).mpr hall)
  · intro htrue
    cases hb : mfind q.data T with
    | none => rw [aremove_no_bucket q T v hb] at htrue; cases htrue
    | some l =>
        cases hp : position (matchesV T v) l with
        | none => rw [aremove_no_match q T v l hb hp] at htrue; cases htrue
        | some i =>
            have hbx := abucket_remove_match_self q T v l i hb hp
            simp only [amatchCount, hbx, hb, Option.getD_some]
            exact countP_eraseIdx_position (matchesV T v) l i hp

/-- Witness for C5: a removal from a fresh container is a no-op returning
`false`, and a removal of the single present copy decrements the match count
from one to zero, in both variants. -/
theorem C5_remove_witness :
    (Pouch.new.remove 2 7 = (false, Pouch.new)) ∧
    (matchCount ((Pouch.new.insert 1 5).remove 1 5).2 1 5 + 1
      = matchCount (Pouch.new.insert 1 5) 1 5) ∧
    (APouch.new.remove 2 7 = (false, APouch.new)) ∧
    (amatchCount ((APouch.new.insert 1 5).remove 1 5).2 1 5 + 1
      = amatchCount (APouch.new.insert 1 5) 1 5) :=
  ⟨(C5_remove_absent_noop_and_true_decrements Pouch.new APouch.new 2 7).1 (by decide),
   (C5_remove_absent_noop_and_true_decrements (Pouch.new.insert 1 5) APouch.new 1 5).2.1
     (by decide),
   (C5_remove_absent_noop_and_true_decrements Pouch.new APouch.new 2 7).2.2.1 (by decide),
   (C5_remove_absent_noop_and_true_decrements Pouch.new (APouch.new.insert 1 5) 1 5).2.2.2
     (by decide)⟩

theorem contains_insert_self (p : Pouch) (T : TypeId) (v : Nat) :
    (p.insert T v).contains T v = true := by
  simp only [Pouch.contains, bucket_insert]
  simp [List.any_append, matchesV, downcast_ref]

theorem contains_applyOp_preserved (p : Pouch) (o : Op) (T : TypeId) (v : Nat)
    (hni : noninterfering T v o = true) (h : p.contains T v = true) :
    (applyOp p o).contains T v = true := by
  cases o with
  | ins S w =>
      simp only [applyOp, Pouch.contains, bucket_insert]
      cases hb : mfind p.data T with
      | none => simp [Pouch.contains, hb] at h
      | some l =>
          have hany : l.any (matchesV T v) = true := by
            simpa [Pouch.contains, hb] using h
          by_cases hST : S = T
          · subst hST
            simp [hb, List.any_append, hany]
          · simp [hST, hb, hany]
  | rem S w =>
      simp only [applyOp]
      cases hb : mfind p.data S with
      | none => rw [remove_no_bucket p S w hb]; exact h
      | some l =>
          cases hp : position (matchesV S w) l with
          | none => rw [remove_no_match p S w l hb hp]; exact h
          | some i =>
              by_cases hST : S = T
              · subst hST
                have hwv : w ≠ v := by
                  simp [noninterfering] at hni
                  exact hni
                have hbx := bucket_remove_match_self p S w l i hb hp
                have hany : l.any (matchesV S v) = true := by
                  simpa [Pouch.contains, hb] using h
                have hpres :
                    (l.eraseIdx i).any (matchesV S v) = l.any (matchesV S v) := by
                  refine any_eraseIdx_position (matchesV S w) (matchesV S v) l i hp ?_
                  intro b hqb
                  simp only [matchesV, decide_eq_true_eq] at hqb ⊢
                  simp only [decide_eq_false_iff_not]
                  intro hrb
                  rw [hqb] at hrb
                  exact hwv (Option.some.inj hrb)
                simp [Pouch.contains, hbx, hpres, hany]
              · have hbo := bucket_remove_other p S T w fun hTS => hST hTS.symm
                simp only [Pouch.contains, hbo]
                simpa [Pouch.contains] using h
  | clear => simp [noninterfering] at hni

theorem contains_applyOps_preserved (p : Pouch) (ops : List Op) (T : TypeId) (v : Nat)
    (hni : ∀ o ∈ ops, noninterfering T v o = true) (h : p.contains T v = true) :
    (applyOps p ops).contains T v = true := by
  induction ops generalizing p with
  | nil => exact h
  | cons o rest ih =>
      exact ih (applyOp p o) (fun x hx => hni x (List.mem_cons_of_mem o hx))
        (contains_applyOp_preserved p o T v (hni o (List.mem_cons_self o rest)) h)

/-- C7: `contains(v)` is true on the state immediately after `insert(v)` (from
any starting state), and it stays true across any further sequence of
operations that contains no `clear` and no `remove` of a value equal to `v`
at `v`'s type. -/
theorem C7_contains_stable_after_insert (p : Pouch) (T : TypeId) (v : Nat)
    (ops : List Op) (hni : ∀ o ∈ ops, noninterfering T v o = true) :
    (applyOps (p.insert T v) ops).contains T v = true :=
  contains_applyOps_preserved (p.insert T v) ops T v hni (contains_insert_self p T v)

/-- Witness for C7: after inserting 5 at type 1, the value survives an
interleaved insert at another type, a failed remove of a different value of
the same type, and a remove at another type. -/
theorem C7_contains_stable_witness :
    (applyOps (Pouch.new.insert 1 5) [Op.ins 2 9, Op.rem 1 6, Op.rem 2 9]).contains 1 5
      = true :=
  C7_contains_stable_after_insert Pouch.new 1 5 [Op.ins 2 9, Op.rem 1 6, Op.rem 2 9]
    (by decide)

/-- C10: when `remove(v)` removes, it removes exactly the element at the first
matching position of the bucket and shifts the rest (`Vec::remove`): the new
bucket is literally the prefix before the match followed by the suffix after
it, every element strictly before the removed index failed the match, and all
other buckets are untouched.  Both variants. -/
theorem C10_remove_first_match_shift (p : Pouch) (q : APouch) (T : TypeId) (v : Nat)
    (l la : List Boxed) (i j : Nat)
    (hb : mfind p.data T = some l) (hp : position (matchesV T v) l = some i)
    (hab : mfind q.data T = some la) (hap : position (matchesV T v) la = some j) :
    (p.remove T v).1 = true ∧
    mfind ((p.remove T v).2).data T = some (l.take i ++ l.drop (i + 1)) ∧
    (∃ b, l[i]? = some b ∧ matchesV T v b = true) ∧
    (l.take i).all (fun b => !(matchesV T v b)) = true ∧
    (∀ S, S ≠ T → mfind ((p.remove T v).2).data S = mfind p.data S) ∧
    (q.remove T v).1 = true ∧
    mfind ((q.remove T v).2).data T = some (la.take j ++ la.drop (j + 1)) ∧
    (∀ S, S ≠ T → mfind ((q.remove T v).2).data S = mfind q.data S) := by
  obtain ⟨hlen, hex, htake⟩ := position_mem (matchesV T v) l i hp
  refine ⟨?_, ?_, hex, htake, ?_, ?_, ?_, ?_⟩
  · rw [remove_match p T v l i hb hp]
  · rw [bucket_remove_match_self p T v l i hb hp, List.eraseIdx_eq_take_drop_succ]
  · intro S hS
    exact bucket_remove_other p T S v hS
  · rw [aremove_match q T v la j hab hap]
  · rw [abucket_remove_match_self q T v la j hab hap, List.eraseIdx_eq_take_drop_succ]
  · intro S hS
    exact abucket_remove_other q T S v hS

/-- Witness for C10: bucket `[7, 5, 9]` at type 1, removing 5 (first match at
index 1) keeps `[7, 9]` in order, in both variants. -/
theorem C10_remove_first_match_shift_witness :
    ((((Pouch.new.insert 1 7).insert 1 5).insert 1 9).remove 1 5).1 = true ∧
    mfind (((((Pouch.new.insert 1 7).insert 1 5).insert 1 9).remove 1 5).2).data 1 =
      some (([{ tid := 1, val := 7 }, { tid := 1, val := 5 },
              { tid := 1, val := 9 }] : List Boxed).take 1 ++
            ([{ tid := 1, val := 7 }, { tid := 1, val := 5 },
              { tid := 1, val := 9 }] : List Boxed).drop 2) ∧
    ((((APouch.new.insert 1 7).insert 1 5).insert 1 9).remove 1 5).1 = true :=
  ⟨(C10_remove_first_match_shift (((Pouch.new.insert 1 7).insert 1 5).insert 1 9)
      (((APouch.new.insert 1 7).insert 1 5).insert 1 9) 1 5
      [{ tid := 1, val := 7 }, { tid := 1, val := 5 }, { tid := 1, val := 9 }]
      [{ tid := 1, val := 7 }, { tid := 1, val := 5 }, { tid := 1, val := 9 }]
      1 1 (by decide) (by decide) (by decide) (by decide)).1,
   (C10_remove_first_match_shift (((Pouch.new.insert 1 7).insert 1 5).insert 1 9)
      (((APouch.new.insert 1 7).insert 1 5).insert 1 9) 1 5
      [{ tid := 1, val := 7 }, { tid := 1, val := 5 }, { tid := 1, val := 9 }]
      [{ tid := 1, val := 7 }, { tid := 1, val := 5 }, { tid := 1, val := 9 }]
      1 1 (by decide) (by decide) (by decide) (by decide)).2.1,
   (C10_remove_first_match_shift (((Pouch.new.insert 1 7).insert 1 5).insert 1 9)
      (((APouch.new.insert 1 7).insert 1 5).insert 1 9) 1 5
      [{ tid := 1, val := 7 }, { tid := 1, val := 5 }, { tid := 1, val := 9 }]
      [{ tid := 1, val := 7 }, { tid := 1, val := 5 }, { tid := 1, val := 9 }]
      1 1 (by decide) (by decide) (by decide) (by decide)).2.2.2.2.2.1⟩

theorem get_all_eq_filterMap (p : Pouch) (T : TypeId) :
    p.get_all_of_type T = ((mfind p.data T).getD []).filterMap (downcast_ref T) := by
  cases h : mfind p.data T <;> simp [Pouch.get_all_of_type, h]

theorem filterMap_downcast_of_tid (T : TypeId) (l : List Boxed)
    (h : ∀ b ∈ l, b.tid = T) : l.filterMap (downcast_ref T) = l.map Boxed.val := by
  induction l with
  | nil => rfl
  | cons a t ih =>
      have ha : a.tid = T := h a (List.mem_cons_self a t)
      rw [List.filterMap_cons, List.map_cons]
      simp [downcast_ref, ha, ih (fun b hb => h b (List.mem_cons_of_mem a hb))]

theorem insBoxes_cons_ins (S T : TypeId) (v : Nat) (rest : List Op) :
    insBoxes (Op.ins S v :: rest) T =
      if S = T then { tid := S, val := v } :: insBoxes rest T else insBoxes rest T := by
  by_cases h : S = T <;> simp [insBoxes, List.filterMap_cons, h]

theorem insBoxes_cons_rem (S T : TypeId) (v : Nat) (rest : List Op) :
    insBoxes (Op.rem S v :: rest) T = insBoxes rest T := by
  simp [insBoxes, List.filterMap_cons]

theorem insBoxes_cons_clear (T : TypeId) (rest : List Op) :
    insBoxes (Op.clear :: rest) T = insBoxes rest T := by
  simp [insBoxes, List.filterMap_cons]

theorem insVals_cons_ins (S T : TypeId) (v : Nat) (rest : List Op) :
    insVals (Op.ins S v :: rest) T =
      if S = T then v :: insVals rest T else insVals rest T := by
  by_cases h : S = T <;> simp [insVals, List.filterMap_cons, h]

theorem insVals_cons_rem (S T : TypeId) (v : Nat) (rest : List Op) :
    insVals (Op.rem S v :: rest) T = insVals rest T := by
  simp [insVals, List.filterMap_cons]

theorem insVals_cons_clear (T : TypeId) (rest : List Op) :
    insVals (Op.clear :: rest) T = insVals rest T := by
  simp [insVals, List.filterMap_cons]

theorem insBoxes_map_val (ops : List Op) (T : TypeId) :
    (insBoxes ops T).map Boxed.val = insVals ops T := by
  induction ops with
  | nil => rfl
  | cons o rest ih =>
      cases o with
      | ins S v =>
          rw [insBoxes_cons_ins, insVals_cons_ins]
          by_cases h : S = T <;> simp [h, ih]
      | rem S v => rw [insBoxes_cons_rem, insVals_cons_rem, ih]
      | clear => rw [insBoxes_cons_clear, insVals_cons_clear, ih]

theorem bucket_remove_sublist (p : Pouch) (S : TypeId) (w : Nat) (T : TypeId) :
    List.Sublist ((mfind ((p.remove S w).2).data T).getD [])
      ((mfind p.data T).getD []) := by
  cases hb : mfind p.data S with
  | none =>
      rw [remove_no_bucket p S w hb]
  | some l =>
      cases hp : position (matchesV S w) l with
      | none =>
          rw [remove_no_match p S w l hb hp]
      | some i =>
          by_cases hST : S = T
          · subst hST
            rw [bucket_remove_match_self p S w l i hb hp, hb]
            exact List.eraseIdx_sublist l i
          · rw [bucket_remove_other p S T w fun h => hST h.symm]

theorem bucket_applyOps_sublist (p : Pouch) (ops : List Op) (T : TypeId) :
    List.Sublist ((mfind (applyOps p ops).data T).getD [])
      (((mfind p.data T).getD []) ++ insBoxes ops T) := by
  induction ops generalizing p with
  | nil =>
      simp only [applyOps, List.foldl_nil, insBoxes, List.filterMap_nil, List.append_nil]
      exact List.Sublist.refl _
  | cons o rest ih =>
      have hstep : applyOps p (o :: rest) = applyOps (applyOp p o) rest := rfl
      rw [hstep]
      refine List.Sublist.trans (ih (applyOp p o)) ?_
      cases o with
      | ins S v =>
          by_cases h : S = T
          · have hbi : (mfind (applyOp p (Op.ins S v)).data T).getD []
                = (mfind p.data T).getD [] ++ [{ tid := S, val := v }] := by
              simp only [applyOp]
              rw [bucket_insert p T S v, if_pos h, h]
              rfl
            rw [hbi, insBoxes_cons_ins, if_pos h]
            have heq : ((mfind p.data T).getD [] ++ [({ tid := S, val := v } : Boxed)])
                ++ insBoxes rest T
                = (mfind p.data T).getD []
                  ++ ({ tid := S, val := v } : Boxed) :: insBoxes rest T := by
              simp
            rw [heq]
          · have hbi : (mfind (applyOp p (Op.ins S v)).data T).getD []
                = (mfind p.data T).getD [] := by
              simp only [applyOp]
              rw [bucket_insert p T S v, if_neg h]
            rw [hbi, insBoxes_cons_ins, if_neg h]
      | rem S w =>
          rw [insBoxes_cons_rem]
          exact List.Sublist.append_right (bucket_remove_sublist p S w T) (insBoxes rest T)
      | clear =>
          rw [insBoxes_cons_clear]
          have hcl : (mfind (applyOp p Op.clear).data T).getD [] = ([] : List Boxed) := rfl
          rw [hcl, List.nil_append]
          exact List.sublist_append_right _ _

/-- C6: in the sequential variant, after any sequence of operations from a
fresh container, `get_all_of_type` at `T` returns exactly the payloads of the
bucket for `T` in bucket order, its length equals `count` at `T`, it is a
subsequence of the values inserted at `T` in insertion order, and it is empty
whenever type `T` was never inserted. -/
theorem C6_get_all_of_type_exact (ops : List Op) (T : TypeId) :
    (Pouch.get_all_of_type (run ops) T).length = (run ops).count T ∧
    Pouch.get_all_of_type (run ops) T
      = ((mfind (run ops).data T).getD []).map Boxed.val ∧
    List.Sublist (Pouch.get_all_of_type (run ops) T) (insVals ops T) ∧
    (insVals ops T = [] → Pouch.get_all_of_type (run ops) T = []) := by
  have hwt : ∀ b ∈ (mfind (run ops).data T).getD [], b.tid = T := wellTyped_run ops T
  have hmap : Pouch.get_all_of_type (run ops) T
      = ((mfind (run ops).data T).getD []).map Boxed.val := by
    rw [get_all_eq_filterMap, filterMap_downcast_of_tid T _ hwt]
  have hsub : List.Sublist (Pouch.get_all_of_type (run ops) T) (insVals ops T) := by
    rw [hmap, ← insBoxes_map_val]
    refine List.Sublist.map Boxed.val ?_
    have := bucket_applyOps_sublist Pouch.new ops T
    simpa [run] using this
  refine ⟨?_, hmap, hsub, ?_⟩
  · rw [hmap, List.length_map]
    exact (countInv_run ops T).symm
  · intro hnone
    rw [hnone] at hsub
    exact List.sublist_nil.mp hsub

/-- Witness for C6: a remove-only history never inserts at type 3, so
`get_all_of_type` at type 3 is empty. -/
theorem C6_get_all_of_type_exact_witness :
    Pouch.get_all_of_type (run [Op.rem 3 0]) 3 = [] :=
  (C6_get_all_of_type_exact [Op.rem 3 0] 3).2.2.2 (by decide)
